import Mathlib

/-!
Verification of the Neurai DePIN terminal messaging core.

The definitions below are a shallow embedding of the JavaScript sources:

* `src/src/messaging/MessageStore.js` — deduplicated, timestamp-sorted log;
* `src/src/messaging/MessagePoller.js` — poll parameter construction,
  envelope recipient-hash parsing (compact-size codec), private-peer
  resolution;
* `src/src/messaging/RecipientDirectory.js` — recipient hash map;
* `src/src/config/ConfigManager.js` — secret-at-rest record format and
  poll-interval validation.

JavaScript idioms are modelled as follows: `Uint8Array` buffers become
`List Nat` whose elements are the byte values (each `< 256`); JS `Map`
becomes an association list where `set` prepends (so `lookup` returns the
most recent binding, exactly as `Map.get` does after an overwrite);
thrown exceptions become `Except`/`Option`; `Array.prototype.sort`, which
is stable by specification, becomes `List.insertionSort` (a stable sort
produces the same list for the same comparator).
-/

namespace DepinTerminal

/-! ## Hex utilities

The crypto library's `utils.bytesToHex` / `utils.hexToBytes` and Node's
`Buffer.toString('hex')` / `Buffer.from(hex, 'hex')`: standard lowercase
hexadecimal.  These externals are given their concrete standard meaning. -/

/-- The sixteen lowercase hex digit characters. -/
def hexDigits : List Char := "0123456789abcdef".data

/-- Hex digit character for a value `k < 16`. -/
def hexDigitChar (k : Nat) : Char := hexDigits.getD k '0'

/-- Numeric value of a hex digit character (0 for non-digits). -/
def hexDigitVal (c : Char) : Nat :=
  if '0' ≤ c ∧ c ≤ '9' then c.toNat - 48
  else if 'a' ≤ c ∧ c ≤ 'f' then c.toNat - 87
  else 0

/-- Two lowercase hex characters for one byte. -/
def byteToHex (b : Nat) : List Char := [hexDigitChar (b / 16), hexDigitChar (b % 16)]

/-- Lowercase hex encoding of a byte list, as characters. -/
def bytesToHexChars (bs : List Nat) : List Char :=
  bs.foldr (fun b acc => byteToHex b ++ acc) []

/-- Lowercase hex encoding of a byte list, as a string (`utils.bytesToHex`). -/
def bytesToHex (bs : List Nat) : String := ⟨bytesToHexChars bs⟩

/-- Decode pairs of hex characters into bytes (`Buffer.from(hex, 'hex')`);
an odd trailing character is dropped, as Node does. -/
def hexCharsToBytes : List Char → List Nat
  | c1 :: c2 :: rest => (16 * hexDigitVal c1 + hexDigitVal c2) :: hexCharsToBytes rest
  | _ => []

theorem hexDigitVal_hexDigitChar : ∀ k : Fin 16, hexDigitVal (hexDigitChar k.val) = k.val := by
  decide

theorem hexDigitChar_ne_colon : ∀ k : Fin 16, hexDigitChar k.val ≠ ':' := by
  decide

theorem hexDigitChar_ne_colon' (k : Nat) : hexDigitChar k ≠ ':' := by
  by_cases h : k < 16
  · exact hexDigitChar_ne_colon ⟨k, h⟩
  · have hlen : hexDigits.length ≤ k := by simp [hexDigits]; omega
    simp [hexDigitChar, List.getD_eq_getElem?_getD, List.getElem?_eq_none hlen]

theorem bytesToHexChars_cons (b : Nat) (bs : List Nat) :
    bytesToHexChars (b :: bs) =
      hexDigitChar (b / 16) :: hexDigitChar (b % 16) :: bytesToHexChars bs := rfl

theorem hexCharsToBytes_cons2 (c1 c2 : Char) (rest : List Char) :
    hexCharsToBytes (c1 :: c2 :: rest) =
      (16 * hexDigitVal c1 + hexDigitVal c2) :: hexCharsToBytes rest := rfl

theorem colon_not_mem_bytesToHexChars (bs : List Nat) : ':' ∉ bytesToHexChars bs := by
  induction bs with
  | nil => simp [bytesToHexChars]
  | cons b bs ih =>
    intro hmem
    rw [bytesToHexChars_cons] at hmem
    rcases List.mem_cons.mp hmem with h | hmem2
    · exact hexDigitChar_ne_colon' (b / 16) h.symm
    · rcases List.mem_cons.mp hmem2 with h | h
      · exact hexDigitChar_ne_colon' (b % 16) h.symm
      · exact ih h

theorem hexCharsToBytes_bytesToHexChars (bs : List Nat) (h : ∀ b ∈ bs, b < 256) :
    hexCharsToBytes (bytesToHexChars bs) = bs := by
  induction bs with
  | nil => rfl
  | cons b bs ih =>
    have hb : b < 256 := h b (List.mem_cons_self b bs)
    have h1 : hexDigitVal (hexDigitChar (b / 16)) = b / 16 :=
      hexDigitVal_hexDigitChar ⟨b / 16, by omega⟩
    have h2 : hexDigitVal (hexDigitChar (b % 16)) = b % 16 :=
      hexDigitVal_hexDigitChar ⟨b % 16, by omega⟩
    rw [bytesToHexChars_cons, hexCharsToBytes_cons2, h1, h2, Nat.div_add_mod,
      ih (fun x hx => h x (List.mem_cons_of_mem b hx))]

/-! ## MessageStore (`src/src/messaging/MessageStore.js`) -/

/-- Message kind, the normalised form of the `message_type` field
(`src/src/domain/messageTypes.js`); `priv` stands for the source string
`"private"` (a reserved word in Lean). -/
inductive MsgType where
  | group
  | priv
deriving DecidableEq, Repr

/-- A stored message, the object passed to `MessageStore.addMessage`. -/
structure Msg where
  sender : String
  message : String
  timestamp : Int
  hash : String
  signature : String
  messageType : MsgType
  peerAddress : Option String
deriving DecidableEq, Repr

/-- `createMessageKey` from `src/src/utils.js`: the template literal
`"{hash}|{signature}"`. -/
def createMessageKey (hash signature : String) : String := hash ++ "|" ++ signature

/-- Deduplication key of a message. -/
def msgKey (m : Msg) : String := createMessageKey m.hash m.signature

/-- The sort order used by `this.messages.sort((a, b) => a.timestamp - b.timestamp)`. -/
def tsLe (a b : Msg) : Prop := a.timestamp ≤ b.timestamp

instance : DecidableRel tsLe := fun a b => inferInstanceAs (Decidable (a.timestamp ≤ b.timestamp))

instance : IsTotal Msg tsLe := ⟨fun a b => Int.le_total a.timestamp b.timestamp⟩

instance : IsTrans Msg tsLe := ⟨fun _ _ _ h1 h2 => le_trans h1 h2⟩

/-- The state of a `MessageStore`: the message array, the `seenHashes` set
(as a list of keys) and the `outgoingPrivateRecipients` map (as an
association list, most recent binding first). -/
structure MessageStore where
  messages : List Msg
  seenHashes : List String
  outgoingPrivateRecipients : List (String × String)
deriving DecidableEq, Repr

/-- The constructor's initial state. -/
def MessageStore.empty : MessageStore := ⟨[], [], []⟩

/-- `MessageStore.addMessage`: dedup on the key, push, stable re-sort by
timestamp; returns `true` iff the message is new. -/
def addMessage (s : MessageStore) (m : Msg) : Bool × MessageStore :=
  let key := createMessageKey m.hash m.signature
  if key ∈ s.seenHashes then
    (false, s)
  else
    (true, { s with
      seenHashes := key :: s.seenHashes
      messages := List.insertionSort tsLe (s.messages ++ [m]) })

/-- `MessageStore.getMessages` (returns a copy of the array). -/
def getMessages (s : MessageStore) : List Msg := s.messages

/-- `MessageStore.getLastTimestamp`: `Math.max` over the timestamps, or 0. -/
def getLastTimestamp (s : MessageStore) : Int :=
  match s.messages.map Msg.timestamp with
  | [] => 0
  | t :: ts => ts.foldl max t

/-- `MessageStore.registerOutgoingPrivateMessage`; the guard
`if (hash && recipientAddress)` rejects empty strings. -/
def registerOutgoingPrivateMessage (s : MessageStore) (hash recipientAddress : String) :
    MessageStore :=
  if hash ≠ "" ∧ recipientAddress ≠ "" then
    { s with outgoingPrivateRecipients := (hash, recipientAddress) :: s.outgoingPrivateRecipients }
  else s

/-- `MessageStore.getOutgoingPrivateRecipient`: `map.get(hash) || null`
(an empty-string value is collapsed to `null` by the `||`). -/
def getOutgoingPrivateRecipient (s : MessageStore) (hash : String) : Option String :=
  match s.outgoingPrivateRecipients.lookup hash with
  | some v => if v = "" then none else some v
  | none => none

/-- The store built by a sequence of `addMessage` calls from a fresh store. -/
def storeFromList (ms : List Msg) : MessageStore :=
  ms.foldl (fun s m => (addMessage s m).2) MessageStore.empty

/-- Internal invariant of the store: messages sorted by timestamp, keys
pairwise distinct, and every stored key recorded in `seenHashes`. -/
def StoreInv (s : MessageStore) : Prop :=
  List.Sorted tsLe s.messages ∧
  (s.messages.map msgKey).Nodup ∧
  ∀ x ∈ s.messages, msgKey x ∈ s.seenHashes

theorem storeInv_empty : StoreInv MessageStore.empty := by
  refine ⟨?_, ?_, ?_⟩ <;> simp [MessageStore.empty, List.Sorted]

theorem addMessage_storeInv (s : MessageStore) (m : Msg) (h : StoreInv s) :
    StoreInv (addMessage s m).2 := by
  obtain ⟨hsort, hnodup, hseen⟩ := h
  by_cases hk : createMessageKey m.hash m.signature ∈ s.seenHashes
  · simpa [addMessage, hk] using ⟨hsort, hnodup, hseen⟩
  · have hperm : (List.insertionSort tsLe (s.messages ++ [m])).Perm (m :: s.messages) :=
      (List.perm_insertionSort tsLe (s.messages ++ [m])).trans (List.perm_append_singleton m s.messages)
    refine ⟨?_, ?_, ?_⟩
    · simpa [addMessage, hk] using List.sorted_insertionSort tsLe (s.messages ++ [m])
    · have hmapperm := hperm.map msgKey
      have hnotmem : msgKey m ∉ s.messages.map msgKey := by
        intro hmem
        obtain ⟨x, hx, hxeq⟩ := List.mem_map.mp hmem
        have hxs : msgKey m ∈ s.seenHashes := hxeq ▸ hseen x hx
        exact hk hxs
      have hcons : ((m :: s.messages).map msgKey).Nodup := by
        rw [List.map_cons, List.nodup_cons]
        refine ⟨hnotmem, hnodup⟩
      simpa [addMessage, hk] using (hmapperm.nodup_iff).mpr hcons
    · intro x hx
      simp only [addMessage, hk, if_neg] at hx ⊢
      have hx2 : x ∈ m :: s.messages := hperm.mem_iff.mp hx
      rcases List.mem_cons.mp hx2 with h1 | h1
      · subst h1; exact List.mem_cons_self _ _
      · exact List.mem_cons_of_mem _ (hseen x h1)

/-- C1: `addMessage(m)` returns `true` and inserts `m` exactly when the key
`"{hash}|{signature}"` is unseen; a seen key returns `false` and leaves the
store unchanged; a successful insert keeps the list sorted by timestamp;
the key is recorded so a second add of the same key returns `false`, and
the stored list contains each key at most once. -/
theorem addMessage_spec (s : MessageStore) (m : Msg) :
    ((addMessage s m).1 = true ↔ msgKey m ∉ s.seenHashes) ∧
    (msgKey m ∈ s.seenHashes → addMessage s m = (false, s)) ∧
    (msgKey m ∉ s.seenHashes →
      (addMessage s m).2.messages.Perm (m :: s.messages) ∧
      List.Sorted tsLe (addMessage s m).2.messages) ∧
    msgKey m ∈ (addMessage s m).2.seenHashes ∧
    (∀ k ∈ s.seenHashes, k ∈ (addMessage s m).2.seenHashes) ∧
    (∀ m' : Msg, msgKey m' = msgKey m → (addMessage (addMessage s m).2 m').1 = false) ∧
    (StoreInv s → StoreInv (addMessage s m).2) ∧
    (∀ ms : List Msg, ((storeFromList ms).messages.map msgKey).Nodup) := by
  have hinvfold : ∀ ms : List Msg, StoreInv (storeFromList ms) := by
    intro ms
    suffices hgen : ∀ (l : List Msg) (s0 : MessageStore), StoreInv s0 →
        StoreInv (l.foldl (fun s m => (addMessage s m).2) s0) by
      exact hgen ms MessageStore.empty storeInv_empty
    intro l
    induction l with
    | nil => intro s0 h0; simpa using h0
    | cons x xs ih =>
      intro s0 h0
      simpa using ih (addMessage s0 x).2 (addMessage_storeInv s0 x h0)
  by_cases hk : msgKey m ∈ s.seenHashes
  · have hkey : createMessageKey m.hash m.signature ∈ s.seenHashes := hk
    refine ⟨?_, ?_, ?_, ?_, ?_, ?_, ?_, ?_⟩
    · simp [addMessage, hkey, hk]
    · intro _; simp [addMessage, hkey]
    · intro hcon; exact absurd hk hcon
    · simpa [addMessage, hkey] using hk
    · intro k hkmem; simpa [addMessage, hkey] using hkmem
    · intro m' hm'
      have hm2 : createMessageKey m'.hash m'.signature = createMessageKey m.hash m.signature := hm'
      simp [addMessage, hkey, hm2]
    · exact addMessage_storeInv s m
    · intro ms; exact (hinvfold ms).2.1
  · have hkey : createMessageKey m.hash m.signature ∉ s.seenHashes := hk
    have hperm : (List.insertionSort tsLe (s.messages ++ [m])).Perm (m :: s.messages) :=
      (List.perm_insertionSort tsLe (s.messages ++ [m])).trans (List.perm_append_singleton m s.messages)
    refine ⟨?_, ?_, ?_, ?_, ?_, ?_, ?_, ?_⟩
    · simp [addMessage, hkey, hk]
    · intro hcon; exact absurd hcon hk
    · intro _
      exact ⟨by simpa [addMessage, hkey] using hperm,
             by simpa [addMessage, hkey] using List.sorted_insertionSort tsLe (s.messages ++ [m])⟩
    · simp [addMessage, hkey, msgKey]
    · intro k hkmem; simp [addMessage, hkey]; right; exact hkmem
    · intro m' hm'
      have hm2 : createMessageKey m'.hash m'.signature = createMessageKey m.hash m.signature := hm'
      simp [addMessage, hkey, hm2]
    · exact addMessage_storeInv s m
    · intro ms; exact (hinvfold ms).2.1

/-- Example message used to witness the C1 theorem. -/
def msgA : Msg :=
  { sender := "S1", message := "hi", timestamp := 5, hash := "h1", signature := "sig1",
    messageType := .group, peerAddress := none }

/-- Witness for C1: on a fresh store the first add of `msgA` succeeds and an
immediate second add of the same message is rejected. -/
theorem addMessage_spec_witness :
    (addMessage MessageStore.empty msgA).1 = true ∧
    (addMessage (addMessage MessageStore.empty msgA).2 msgA).1 = false := by
  have h := addMessage_spec MessageStore.empty msgA
  exact ⟨h.1.mpr (by simp [MessageStore.empty]), h.2.2.2.2.2.1 msgA rfl⟩

/-- Lexicographic comparison of character lists (the standard string
order used to state "hash ascending"). -/
def charListLeB : List Char → List Char → Bool
  | [], _ => true
  | _ :: _, [] => false
  | x :: xs, y :: ys =>
    if x < y then true
    else if y < x then false
    else charListLeB xs ys

/-- The order claimed by the spec for the read-back list: timestamp
ascending with ties broken by hash ascending (lexicographic). -/
def tsHashLe (a b : Msg) : Prop :=
  a.timestamp < b.timestamp ∨
    (a.timestamp = b.timestamp ∧ charListLeB a.hash.data b.hash.data = true)

instance : DecidableRel tsHashLe := fun a b =>
  inferInstanceAs (Decidable (a.timestamp < b.timestamp ∨
    (a.timestamp = b.timestamp ∧ charListLeB a.hash.data b.hash.data = true)))

/-- First message of the C2 counterexample: timestamp 7, hash `"bb"`. -/
def msgT1 : Msg :=
  { sender := "S1", message := "x", timestamp := 7, hash := "bb", signature := "s1",
    messageType := .group, peerAddress := none }

/-- Second message of the C2 counterexample: timestamp 7, hash `"aa"`. -/
def msgT2 : Msg :=
  { sender := "S2", message := "y", timestamp := 7, hash := "aa", signature := "s2",
    messageType := .group, peerAddress := none }

/-- C2 counterexample: adding two messages with equal timestamps and
descending hashes leaves `getMessages` in insertion order `["bb", "aa"]` —
the adjacent pair violates the claimed `(timestamp asc, hash asc)` order. -/
theorem getMessages_not_hash_sorted :
    getMessages (addMessage (addMessage MessageStore.empty msgT1).2 msgT2).2 = [msgT1, msgT2] ∧
    ¬ tsHashLe msgT1 msgT2 := by
  constructor
  · decide
  · intro hcon
    rcases hcon with h | ⟨_, h⟩
    · exact absurd h (by decide)
    · exact absurd h (by decide)

/-- C2 amended: after any sequence of `addMessage` calls the list read back
by `getMessages` is sorted by timestamp ascending (non-strictly); messages
with equal timestamps stay in insertion order (the sort is stable) — there
is no hash tie-break. -/
theorem getMessages_sorted_by_timestamp (ms : List Msg) :
    List.Sorted tsLe (getMessages (storeFromList ms)) := by
  suffices hgen : ∀ (l : List Msg) (s0 : MessageStore), StoreInv s0 →
      StoreInv (l.foldl (fun s m => (addMessage s m).2) s0) by
    exact (hgen ms MessageStore.empty storeInv_empty).1
  intro l
  induction l with
  | nil => intro s0 h0; simpa using h0
  | cons x xs ih =>
    intro s0 h0
    simpa using ih (addMessage s0 x).2 (addMessage_storeInv s0 x h0)

/-! ## Envelope codec (`MessagePoller.readCompactSize` / `readVector`)

Buffers are `Uint8Array`s: lists of byte values `< 256`.  On such bytes the
source's bitwise combination `b1 | (b2 << 8) | …` (with `>>> 0` for the
32-bit case) equals the little-endian arithmetic sum used below, because
the shifted bytes occupy disjoint bit ranges. -/

/-- Little-endian value of a byte list. -/
def leVal (bs : List Nat) : Nat := bs.foldr (fun b acc => b + 256 * acc) 0

/-- `MessagePoller.readCompactSize(buf, offset)`: Bitcoin-style compact
size.  Returns the decoded value and the offset after it, or the thrown
error message. -/
def readCompactSize (buf : List Nat) (offset : Nat) : Except String (Nat × Nat) :=
  if buf.length ≤ offset then .error "CompactSize: out of bounds"
  else
    let first := buf.getD offset 0
    if first < 253 then .ok (first, offset + 1)
    else if first = 253 then
      if buf.length < offset + 3 then .error "CompactSize: truncated uint16"
      else .ok (buf.getD (offset + 1) 0 + 256 * buf.getD (offset + 2) 0, offset + 3)
    else if first = 254 then
      if buf.length < offset + 5 then .error "CompactSize: truncated uint32"
      else .ok (buf.getD (offset + 1) 0 + 256 * buf.getD (offset + 2) 0 +
        65536 * buf.getD (offset + 3) 0 + 16777216 * buf.getD (offset + 4) 0, offset + 5)
    else
      if buf.length < offset + 9 then .error "CompactSize: truncated uint64"
      else
        let value := leVal ((buf.drop (offset + 1)).take 8)
        if 9007199254740991 < value then .error "CompactSize: value too large"
        else .ok (value, offset + 9)

/-- `MessagePoller.readVector(buf, offset)`: a compact size followed by
that many bytes; truncation throws. -/
def readVector (buf : List Nat) (offset : Nat) : Except String (List Nat × Nat) :=
  match readCompactSize buf offset with
  | .error e => .error e
  | .ok (len, afterLen) =>
    if buf.length < afterLen + len then .error "Vector: truncated"
    else .ok ((buf.drop afterLen).take len, afterLen + len)

theorem drop_take_succ_getD (l : List Nat) (p k : Nat) (h : p < l.length) :
    (l.drop p).take (k + 1) = l.getD p 0 :: (l.drop (p + 1)).take k := by
  rw [List.drop_eq_getElem_cons h, List.take_succ_cons, List.getD_eq_getElem _ _ h]

theorem leVal_take2 (buf : List Nat) (p : Nat) (h : p + 2 ≤ buf.length) :
    leVal ((buf.drop p).take 2) = buf.getD p 0 + 256 * buf.getD (p + 1) 0 := by
  rw [show (2 : Nat) = 1 + 1 from rfl, drop_take_succ_getD buf p 1 (by omega),
    drop_take_succ_getD buf (p + 1) 0 (by omega)]
  simp [leVal]

theorem leVal_take4 (buf : List Nat) (p : Nat) (h : p + 4 ≤ buf.length) :
    leVal ((buf.drop p).take 4) = buf.getD p 0 + 256 * buf.getD (p + 1) 0 +
      65536 * buf.getD (p + 2) 0 + 16777216 * buf.getD (p + 3) 0 := by
  rw [show (4 : Nat) = 3 + 1 from rfl, drop_take_succ_getD buf p 3 (by omega),
    show (3 : Nat) = 2 + 1 from rfl, drop_take_succ_getD buf (p + 1) 2 (by omega),
    show (2 : Nat) = 1 + 1 from rfl, drop_take_succ_getD buf (p + 2) 1 (by omega),
    drop_take_succ_getD buf (p + 3) 0 (by omega)]
  simp [leVal]
  ring

theorem readCompactSize_small (buf : List Nat) (offset : Nat)
    (h1 : offset < buf.length) (h2 : buf.getD offset 0 < 253) :
    readCompactSize buf offset = .ok (buf.getD offset 0, offset + 1) := by
  rw [readCompactSize, if_neg (by omega), if_pos h2]

theorem readVector_ok (buf : List Nat) (offset n aft : Nat)
    (h : readCompactSize buf offset = .ok (n, aft)) (h2 : aft + n ≤ buf.length) :
    readVector buf offset = .ok ((buf.drop aft).take n, aft + n) := by
  rw [readVector, h]
  simp only
  rw [if_neg (by omega)]

/-- C6: `readCompactSize` decodes exactly as specified — a first byte
below 253 is the value itself; 253/254/255 read the next 2/4/8 bytes
little-endian, the 8-byte form rejecting values above `2^53 − 1`; and
`readVector` reads a compact size followed by exactly that many bytes,
any read past the end of the buffer being an error. -/
theorem readCompactSize_readVector_spec (buf : List Nat) (offset : Nat) :
    (buf.length ≤ offset → readCompactSize buf offset = .error "CompactSize: out of bounds") ∧
    (offset < buf.length → buf.getD offset 0 < 253 →
      readCompactSize buf offset = .ok (buf.getD offset 0, offset + 1)) ∧
    (offset < buf.length → buf.getD offset 0 = 253 →
      (offset + 3 ≤ buf.length →
        readCompactSize buf offset = .ok (leVal ((buf.drop (offset + 1)).take 2), offset + 3)) ∧
      (buf.length < offset + 3 →
        readCompactSize buf offset = .error "CompactSize: truncated uint16")) ∧
    (offset < buf.length → buf.getD offset 0 = 254 →
      (offset + 5 ≤ buf.length →
        readCompactSize buf offset = .ok (leVal ((buf.drop (offset + 1)).take 4), offset + 5)) ∧
      (buf.length < offset + 5 →
        readCompactSize buf offset = .error "CompactSize: truncated uint32")) ∧
    (offset < buf.length → buf.getD offset 0 = 255 →
      (offset + 9 ≤ buf.length → leVal ((buf.drop (offset + 1)).take 8) ≤ 2 ^ 53 - 1 →
        readCompactSize buf offset = .ok (leVal ((buf.drop (offset + 1)).take 8), offset + 9)) ∧
      (offset + 9 ≤ buf.length → 2 ^ 53 - 1 < leVal ((buf.drop (offset + 1)).take 8) →
        readCompactSize buf offset = .error "CompactSize: value too large") ∧
      (buf.length < offset + 9 →
        readCompactSize buf offset = .error "CompactSize: truncated uint64")) ∧
    (∀ n aft, readCompactSize buf offset = .ok (n, aft) →
      (aft + n ≤ buf.length →
        readVector buf offset = .ok ((buf.drop aft).take n, aft + n) ∧
        ((buf.drop aft).take n).length = n) ∧
      (buf.length < aft + n → readVector buf offset = .error "Vector: truncated")) := by
  refine ⟨?_, ?_, ?_, ?_, ?_, ?_⟩
  · intro h1
    rw [readCompactSize, if_pos h1]
  · exact readCompactSize_small buf offset
  · intro h1 h2
    constructor
    · intro h3
      rw [readCompactSize, if_neg (by omega), h2, if_neg (by omega), if_pos rfl,
        if_neg (by omega), leVal_take2 buf (offset + 1) (by omega)]
    · intro h3
      rw [readCompactSize, if_neg (by omega), h2, if_neg (by omega), if_pos rfl,
        if_pos (by omega)]
  · intro h1 h2
    constructor
    · intro h3
      rw [readCompactSize, if_neg (by omega), h2, if_neg (by omega), if_neg (by omega),
        if_pos rfl, if_neg (by omega), leVal_take4 buf (offset + 1) (by omega)]
    · intro h3
      rw [readCompactSize, if_neg (by omega), h2, if_neg (by omega), if_neg (by omega),
        if_pos rfl, if_pos (by omega)]
  · intro h1 h2
    refine ⟨?_, ?_, ?_⟩
    · intro h3 h4
      rw [readCompactSize, if_neg (by omega), h2, if_neg (by omega), if_neg (by omega),
        if_neg (by omega), if_neg (by omega)]
      rw [if_neg (by omega)]
    · intro h3 h4
      rw [readCompactSize, if_neg (by omega), h2, if_neg (by omega), if_neg (by omega),
        if_neg (by omega), if_neg (by omega)]
      rw [if_pos (by omega)]
    · intro h3
      rw [readCompactSize, if_neg (by omega), h2, if_neg (by omega), if_neg (by omega),
        if_neg (by omega), if_pos (by omega)]
  · intro n aft h
    constructor
    · intro h2
      refine ⟨readVector_ok buf offset n aft h h2, ?_⟩
      simp only [List.length_take, List.length_drop]
      have haft : aft ≤ buf.length := by omega
      omega
    · intro h2
      rw [readVector, h]
      simp only
      rw [if_pos (by omega)]

/-- Witness for C6: concrete decodings — a one-byte value, a 253-prefixed
two-byte little-endian value, and a vector read with its exact byte
count. -/
theorem readCompactSize_readVector_spec_witness :
    readCompactSize [5] 0 = .ok (5, 1) ∧
    readCompactSize [253, 1, 2] 0 = .ok (513, 3) ∧
    readVector [2, 9, 8, 7] 0 = .ok ([9, 8], 3) := by
  have h1 := readCompactSize_readVector_spec [5] 0
  have h2 := readCompactSize_readVector_spec [253, 1, 2] 0
  have h3 := readCompactSize_readVector_spec [2, 9, 8, 7] 0
  refine ⟨?_, ?_, ?_⟩
  · have := h1.2.1 (by decide) (by decide)
    simpa using this
  · have := (h2.2.2.1 (by decide) (by decide)).1 (by decide)
    simpa [leVal] using this
  · have hcs : readCompactSize [2, 9, 8, 7] 0 = .ok (2, 1) := by
      have := h3.2.1 (by decide) (by decide)
      simpa using this
    have := ((h3.2.2.2.2.2 2 1 hcs).1 (by decide)).1
    simpa using this

/-! ## Poller: RPC parameter construction (`MessagePoller.buildRpcParams` / `poll`) -/

/-- A JSON-RPC parameter: the token and address are strings, the optional
since-timestamp is a number. -/
inductive RpcParam where
  | str (s : String)
  | num (n : Int)
deriving DecidableEq, Repr

/-- `MessagePoller.buildRpcParams(forceFullPoll)`: `[token, address]`, plus
the store's last timestamp when not forcing a full poll and it is
positive. -/
def buildRpcParams (token address : String) (store : MessageStore)
    (forceFullPoll : Bool) : List RpcParam :=
  let params := [RpcParam.str token, RpcParam.str address]
  if forceFullPoll then params
  else
    let lastTimestamp := getLastTimestamp store
    if lastTimestamp > 0 then params ++ [RpcParam.num lastTimestamp] else params

/-- The parameters `poll()` passes to `depinreceivemsg`: it calls
`buildRpcParams(wasDisconnected)`. -/
def pollParams (token address : String) (store : MessageStore)
    (wasDisconnected : Bool) : List RpcParam :=
  buildRpcParams token address store wasDisconnected

/-- C4: a poll sends `[token, self_address]` and appends the store's last
timestamp exactly when `wasDisconnected` is false and the timestamp is
positive; any poll with `wasDisconnected = true` carries no
since-timestamp (a full sync). -/
theorem pollParams_spec (token address : String) (store : MessageStore)
    (wasDisconnected : Bool) :
    pollParams token address store wasDisconnected =
      if wasDisconnected = false ∧ 0 < getLastTimestamp store then
        [RpcParam.str token, RpcParam.str address, RpcParam.num (getLastTimestamp store)]
      else
        [RpcParam.str token, RpcParam.str address] := by
  cases wasDisconnected with
  | true => simp [pollParams, buildRpcParams]
  | false =>
    by_cases h : 0 < getLastTimestamp store
    · simp [pollParams, buildRpcParams, h]
    · simp [pollParams, buildRpcParams, h]

/-! ## Poller: envelope recipient-hash extraction
(`MessagePoller.extractRecipientHashes`) -/

/-- The recipient loop of `extractRecipientHashes`: for each of `count`
recipients, stop early if fewer than 20 bytes remain for the key id,
otherwise read the 20-byte key id and skip the wrapped-key vector
(whose parse error propagates), accumulating lowercase hex key ids. -/
def recipientLoop (buf : List Nat) : Nat → Nat → List String → Except String (List String)
  | _, 0, acc => .ok acc.reverse
  | offset, n + 1, acc =>
    if buf.length < offset + 20 then .ok acc.reverse
    else
      let keyId := (buf.drop offset).take 20
      match readVector buf (offset + 20) with
      | .error e => .error e
      | .ok (_, off') => recipientLoop buf off' n (bytesToHex keyId :: acc)

/-- `MessagePoller.extractRecipientHashes`: skip the ephemeral-pubkey and
payload vectors, read the recipient count, run the recipient loop; the
surrounding `try`/`catch` maps any thrown parse error to `[]`.  The input
is the envelope as bytes (`utils.hexToBytes` of the normalised hex). -/
def extractRecipientHashes (buf : List Nat) : List String :=
  match readVector buf 0 with
  | .error _ => []
  | .ok (_, off1) =>
    match readVector buf off1 with
    | .error _ => []
    | .ok (_, off2) =>
      match readCompactSize buf off2 with
      | .error _ => []
      | .ok (count, off3) =>
        match recipientLoop buf off3 count [] with
        | .error _ => []
        | .ok hashes => hashes

/-- The C5 counterexample envelope: empty ephemeral and payload vectors,
recipient count 2, one complete recipient (20-byte key id of zeros and an
empty wrapped-key vector), then truncation before the second recipient. -/
def truncatedEnvelope : List Nat := [0, 0, 2] ++ List.replicate 20 0 ++ [0]

/-- C5 counterexample: an envelope truncated mid-recipient (nothing left
for the second of two announced recipients) yields the non-empty partial
list of the hashes read so far, not the empty list the claim requires. -/
theorem extractRecipientHashes_truncated_partial :
    extractRecipientHashes truncatedEnvelope =
      ["0000000000000000000000000000000000000000"] ∧
    extractRecipientHashes truncatedEnvelope ≠ ([] : List String) := by
  refine ⟨by decide, by decide⟩

theorem readCompactSize_byte (buf pre suf : List Nat) (b : Nat) (off res : Nat)
    (hbuf : buf = pre ++ (b :: suf)) (hb : b < 253)
    (hoff : off = pre.length) (hres : res = pre.length + 1) :
    readCompactSize buf off = .ok (b, res) := by
  subst hoff; subst hres
  have hget : buf.getD pre.length 0 = b := by
    rw [hbuf, List.getD_append_right pre _ 0 pre.length (le_refl _)]
    simp
  have h1 : pre.length < buf.length := by
    rw [hbuf]; simp
  have h2 := readCompactSize_small buf pre.length h1 (by rw [hget]; exact hb)
  rw [hget] at h2
  exact h2

theorem readVector_exact (buf pre v suf : List Nat) (off res : Nat)
    (hbuf : buf = pre ++ (v.length :: (v ++ suf))) (hv : v.length < 253)
    (hoff : off = pre.length) (hres : res = pre.length + 1 + v.length) :
    readVector buf off = .ok (v, res) := by
  subst hoff; subst hres
  have hcs : readCompactSize buf pre.length = .ok (v.length, pre.length + 1) :=
    readCompactSize_byte buf pre (v ++ suf) v.length pre.length (pre.length + 1)
      (by rw [hbuf]) hv rfl rfl
  have hslice : (buf.drop (pre.length + 1)).take v.length = v := by
    have hb2 : buf = (pre ++ [v.length]) ++ (v ++ suf) := by rw [hbuf]; simp
    have hl : (pre ++ [v.length]).length = pre.length + 1 := by simp
    rw [hb2, ← hl, List.drop_left]
    exact List.take_left v suf
  have hbound : pre.length + 1 + v.length ≤ buf.length := by
    rw [hbuf]
    simp only [List.length_append, List.length_cons]
    omega
  have hrv := readVector_ok buf pre.length v.length (pre.length + 1) hcs hbound
  rw [hslice] at hrv
  exact hrv

theorem drop_take_exact (buf pre k suf : List Nat) (off : Nat)
    (hbuf : buf = pre ++ (k ++ suf)) (hoff : off = pre.length) :
    (buf.drop off).take k.length = k := by
  subst hoff
  rw [hbuf, List.drop_left]
  exact List.take_left k suf

theorem recipientLoop_zero (buf : List Nat) (offset : Nat) (acc : List String) :
    recipientLoop buf offset 0 acc = .ok acc.reverse := rfl

theorem recipientLoop_succ (buf : List Nat) (offset n : Nat) (acc : List String) :
    recipientLoop buf offset (n + 1) acc =
      if buf.length < offset + 20 then .ok acc.reverse
      else
        match readVector buf (offset + 20) with
        | .error e => .error e
        | .ok (_, off') =>
          recipientLoop buf off' n (bytesToHex ((buf.drop offset).take 20) :: acc) := rfl

/-- C5 amended: `extractRecipientHashes` never throws; all parse errors in
the leading vectors, the count, or a recipient's wrapped-key vector give
`[]`, and a recipient count of 0 gives `[]`; but an envelope truncated so
that fewer than 20 bytes remain for a recipient's key id stops the loop
and returns the hashes collected so far — a possibly non-empty partial
list, here exactly `[hex(keyId)]` for the one complete recipient. -/
theorem extractRecipientHashes_spec (e p : List Nat)
    (he : e.length < 253) (hp : p.length < 253) :
    extractRecipientHashes (e.length :: (e ++ (p.length :: (p ++ [0])))) = [] ∧
    (∀ k : List Nat, k.length = 20 →
      extractRecipientHashes (e.length :: (e ++ (p.length :: (p ++ (2 :: (k ++ [0])))))) =
        [bytesToHex k]) := by
  constructor
  · set buf1 := e.length :: (e ++ (p.length :: (p ++ [0]))) with hbuf1
    have hrv1 : readVector buf1 0 = .ok (e, e.length + 1) :=
      readVector_exact buf1 [] e (p.length :: (p ++ [0])) 0 (e.length + 1)
        (by simp [hbuf1]) he (by simp)
        (by simp only [List.length_nil] <;> omega)
    have hrv2 : readVector buf1 (e.length + 1) = .ok (p, e.length + p.length + 2) :=
      readVector_exact buf1 (e.length :: e) p [0] (e.length + 1) (e.length + p.length + 2)
        (by simp [hbuf1]) hp
        (by simp only [List.length_cons, List.length_nil, List.length_append] <;> omega)
        (by simp only [List.length_cons, List.length_nil, List.length_append] <;> omega)
    have hcs3 : readCompactSize buf1 (e.length + p.length + 2) =
        .ok (0, e.length + p.length + 3) :=
      readCompactSize_byte buf1 (e.length :: (e ++ (p.length :: p))) [] 0
        (e.length + p.length + 2) (e.length + p.length + 3)
        (by simp [hbuf1]) (by omega)
        (by simp only [List.length_cons, List.length_nil, List.length_append] <;> omega)
        (by simp only [List.length_cons, List.length_nil, List.length_append] <;> omega)
    simp only [extractRecipientHashes, hrv1, hrv2, hcs3, recipientLoop_zero,
      List.reverse_nil]
  · intro k hk
    set buf2 := e.length :: (e ++ (p.length :: (p ++ (2 :: (k ++ [0]))))) with hbuf2
    have hrv1 : readVector buf2 0 = .ok (e, e.length + 1) :=
      readVector_exact buf2 [] e (p.length :: (p ++ (2 :: (k ++ [0])))) 0 (e.length + 1)
        (by simp [hbuf2]) he (by simp)
        (by simp only [List.length_nil] <;> omega)
    have hrv2 : readVector buf2 (e.length + 1) = .ok (p, e.length + p.length + 2) :=
      readVector_exact buf2 (e.length :: e) p (2 :: (k ++ [0])) (e.length + 1)
        (e.length + p.length + 2)
        (by simp [hbuf2]) hp
        (by simp only [List.length_cons, List.length_nil, List.length_append] <;> omega)
        (by simp only [List.length_cons, List.length_nil, List.length_append] <;> omega)
    have hcs3 : readCompactSize buf2 (e.length + p.length + 2) =
        .ok (2, e.length + p.length + 3) :=
      readCompactSize_byte buf2 (e.length :: (e ++ (p.length :: p))) (k ++ [0]) 2
        (e.length + p.length + 2) (e.length + p.length + 3)
        (by simp [hbuf2]) (by omega)
        (by simp only [List.length_cons, List.length_nil, List.length_append] <;> omega)
        (by simp only [List.length_cons, List.length_nil, List.length_append] <;> omega)
    have hlen2 : buf2.length = e.length + p.length + 24 := by
      rw [hbuf2]
      simp only [List.length_cons, List.length_nil, List.length_append]
      omega
    have hslice : (buf2.drop (e.length + p.length + 3)).take 20 = k := by
      have h := drop_take_exact buf2 (e.length :: (e ++ (p.length :: (p ++ [2])))) k [0]
        (e.length + p.length + 3)
        (by simp [hbuf2])
        (by simp only [List.length_cons, List.length_nil, List.length_append] <;> omega)
      rwa [hk] at h
    have hrvk : readVector buf2 (e.length + p.length + 3 + 20) =
        .ok ([], e.length + p.length + 24) :=
      readVector_exact buf2 (e.length :: (e ++ (p.length :: (p ++ (2 :: k))))) [] []
        (e.length + p.length + 3 + 20) (e.length + p.length + 24)
        (by simp [hbuf2]) (by simp)
        (by simp only [List.length_cons, List.length_nil, List.length_append] <;> omega)
        (by simp only [List.length_cons, List.length_nil, List.length_append] <;> omega)
    have hloop : recipientLoop buf2 (e.length + p.length + 3) 2 [] = .ok [bytesToHex k] := by
      rw [show (2 : Nat) = 1 + 1 from rfl, recipientLoop_succ, if_neg (by omega), hslice]
      simp only [hrvk]
      rw [show (1 : Nat) = 0 + 1 from rfl, recipientLoop_succ, if_pos (by omega)]
      simp
    simp only [extractRecipientHashes, hrv1, hrv2, hcs3, hloop]

/-- Witness for C5 amended: a concrete envelope with empty leading vectors
and count 0 parses to no hashes, and the one-complete-recipient truncated
envelope yields exactly the one key id read. -/
theorem extractRecipientHashes_spec_witness :
    extractRecipientHashes [0, 0, 0] = [] ∧
    extractRecipientHashes ([0, 0, 2] ++ (List.replicate 20 1 ++ [0])) =
      [bytesToHex (List.replicate 20 1)] := by
  have h := extractRecipientHashes_spec [] [] (by decide) (by decide)
  refine ⟨?_, ?_⟩
  · have h1 := h.1
    simpa using h1
  · have h2 := h.2 (List.replicate 20 1) (by decide)
    simpa using h2

/-! ## Poller: classification and private-peer resolution
(`MessagePoller.processMessage` / `resolvePrivatePeerAddress`) -/

/-- ASCII lowercasing of one character (`String.prototype.toLowerCase`
restricted to the ASCII identifiers and hex digits this code compares). -/
def charToLower (c : Char) : Char :=
  if 'A' ≤ c ∧ c ≤ 'Z' then Char.ofNat (c.toNat + 32) else c

/-- ASCII lowercasing of a string (`toLowerCase`). -/
def strToLower (s : String) : String := ⟨s.data.map charToLower⟩

/-- `normalizeMessageType` (`src/src/domain/messageTypes.js`): the string
`"private"` (case-insensitively) gives Private, `"group"` gives Group,
anything else — including a missing field — falls back to Group. -/
def normalizeMessageType (raw : Option String) : MsgType :=
  match raw with
  | some s =>
    if strToLower s = "private" then .priv
    else if strToLower s = "group" then .group
    else .group
  | none => .group

/-- The poller state consulted when resolving a private peer: the wallet's
own address, the message store (outgoing-private map) and the recipient
directory's hash map. -/
structure PollerCtx where
  selfAddress : String
  store : MessageStore
  hashMap : List (String × String)

/-- The lookup loop of `resolvePrivatePeerAddress`: the first directory
hit that is truthy and differs from the own address. -/
def findPeer (map : List (String × String)) (self : String) : List String → Option String
  | [] => none
  | h :: rest =>
    match map.lookup h with
    | some a => if a ≠ "" ∧ a ≠ self then some a else findPeer map self rest
    | none => findPeer map self rest

/-- `MessagePoller.resolvePrivatePeerAddress`: the outgoing-private map is
consulted first and its value returned without further checks; otherwise
the recipient hashes parsed from the ciphertext are looked up in the
directory map. -/
def resolvePrivatePeerAddress (ctx : PollerCtx) (msgHash : String) (payload : List Nat) :
    Option String :=
  match getOutgoingPrivateRecipient ctx.store msgHash with
  | some mapped => some mapped
  | none =>
    let hashes := extractRecipientHashes payload
    if hashes.isEmpty then none
    else findPeer ctx.hashMap ctx.selfAddress hashes

/-- The `peerAddress` that `MessagePoller.processMessage` stores and emits:
null for Group; for Private, the resolved peer when the sender is the own
address, else the sender itself. -/
def computePeerAddress (ctx : PollerCtx) (rawType : Option String)
    (sender msgHash : String) (payload : List Nat) : Option String :=
  if normalizeMessageType rawType = .priv then
    if sender = ctx.selfAddress then resolvePrivatePeerAddress ctx msgHash payload
    else some sender
  else none

/-- C3 counterexample store: a private message to the client's own address
was sent, so its hash is registered against the own address. -/
def cexStore : MessageStore :=
  registerOutgoingPrivateMessage MessageStore.empty "h1" "NSELF"

/-- C3 counterexample context: the own address is `NSELF`. -/
def cexCtx : PollerCtx := { selfAddress := "NSELF", store := cexStore, hashMap := [] }

/-- C3 counterexample: for a Private message whose hash is in the
outgoing-private map with the own address as recipient, the poller stores
`peerAddress = NSELF` — a non-null peer equal to the own address. -/
theorem computePeerAddress_self_counterexample :
    computePeerAddress cexCtx (some "private") "NSELF" "h1" [] = some "NSELF" ∧
    cexCtx.selfAddress = "NSELF" := by
  refine ⟨by decide, rfl⟩

theorem findPeer_ne_self (map : List (String × String)) (self : String) :
    ∀ (l : List String) (p : String), findPeer map self l = some p → p ≠ self := by
  intro l
  induction l with
  | nil => intro p hp; simp [findPeer] at hp
  | cons h rest ih =>
    intro p hp
    rw [findPeer] at hp
    cases hlk : map.lookup h with
    | none =>
      simp only [hlk] at hp
      exact ih p hp
    | some a =>
      simp only [hlk] at hp
      by_cases hcond : a ≠ "" ∧ a ≠ self
      · rw [if_pos hcond] at hp
        have : a = p := by injection hp
        exact this ▸ hcond.2
      · rw [if_neg hcond] at hp
        exact ih p hp

/-- C3 amended: the sender-field path and the recipient-hash fallback
guarantee on their own that a non-null Private peer differs from the own
address; the outgoing-private-map value is returned unchecked, so the
invariant holds only under the proviso that no registered outgoing
recipient equals the own address (violated when a private message is sent
to oneself). -/
theorem computePeerAddress_ne_self (ctx : PollerCtx) (rawType : Option String)
    (sender msgHash : String) (payload : List Nat) (p : String)
    (houtgoing : ∀ a, getOutgoingPrivateRecipient ctx.store msgHash = some a →
      a ≠ ctx.selfAddress)
    (hres : computePeerAddress ctx rawType sender msgHash payload = some p) :
    p ≠ ctx.selfAddress := by
  rw [computePeerAddress] at hres
  by_cases ht : normalizeMessageType rawType = MsgType.priv
  · rw [if_pos ht] at hres
    by_cases hs : sender = ctx.selfAddress
    · rw [if_pos hs, resolvePrivatePeerAddress] at hres
      cases hm : getOutgoingPrivateRecipient ctx.store msgHash with
      | some mapped =>
        rw [hm] at hres
        have : mapped = p := by injection hres
        exact this ▸ houtgoing mapped hm
      | none =>
        rw [hm] at hres
        simp only at hres
        by_cases hemp : (extractRecipientHashes payload).isEmpty
        · rw [if_pos hemp] at hres; exact absurd hres (by simp)
        · rw [if_neg hemp] at hres
          exact findPeer_ne_self ctx.hashMap ctx.selfAddress _ p hres
    · rw [if_neg hs] at hres
      have : sender = p := by injection hres
      exact this ▸ hs
  · rw [if_neg ht] at hres
    exact absurd hres (by simp)

/-- Witness for C3 amended: with an empty outgoing-private map, a Private
message from another sender `B` gets peer `B`, which differs from the own
address `A`. -/
theorem computePeerAddress_ne_self_witness :
    computePeerAddress ⟨"A", MessageStore.empty, []⟩ (some "private") "B" "h" [] = some "B" ∧
    ("B" : String) ≠ ("A" : String) := by
  refine ⟨by decide, ?_⟩
  exact computePeerAddress_ne_self ⟨"A", MessageStore.empty, []⟩ (some "private") "B" "h" [] "B"
    (fun a ha => by simp [getOutgoingPrivateRecipient, MessageStore.empty] at ha)
    (by decide)

/-! ## RecipientDirectory (`src/src/messaging/RecipientDirectory.js`) -/

/-- The crypto-library utilities consumed by `getHashMap`
(`neuraiDepinMsg.utils`): abstract functions of the external library. -/
structure CryptoUtils where
  hexToBytes : String → List Nat
  hash160 : List Nat → List Nat
  bytesToHex : List Nat → String

/-- A directory entry: `{ address, pubkey }` (pubkey already normalised). -/
structure RecipientEntry where
  address : String
  pubkey : String
deriving DecidableEq, Repr

/-- JS `Map.set`: prepend-with-shadowing, so `lookup` sees the newest
binding, exactly as `Map.get` does after an overwrite. -/
def mapSet (m : List (String × String)) (k v : String) : List (String × String) := (k, v) :: m

/-- JS `Map.get`. -/
def mapGet (m : List (String × String)) (k : String) : Option String := m.lookup k

/-- JS `Map.has`. -/
def mapHas (m : List (String × String)) (k : String) : Bool := (m.lookup k).isSome

/-- Forward hash key of an entry:
`hex(hash160(hexToBytes(pubkey))).toLowerCase()`. -/
def entryHashHex (u : CryptoUtils) (en : RecipientEntry) : String :=
  strToLower (u.bytesToHex (u.hash160 (u.hexToBytes en.pubkey)))

/-- Reversed hash key of an entry:
`hex(reverse(hash160(hexToBytes(pubkey)))).toLowerCase()`. -/
def entryRevHex (u : CryptoUtils) (en : RecipientEntry) : String :=
  strToLower (u.bytesToHex (u.hash160 (u.hexToBytes en.pubkey)).reverse)

/-- The map-building loop of `RecipientDirectory.getHashMap`: per entry,
set the forward key unconditionally, then the reversed key only if it is
not already present. -/
def buildHashMap (u : CryptoUtils) :
    List RecipientEntry → List (String × String) → List (String × String)
  | [], m => m
  | en :: rest, m =>
    let hashBytes := u.hash160 (u.hexToBytes en.pubkey)
    let hashHex := strToLower (u.bytesToHex hashBytes)
    let m1 := mapSet m hashHex en.address
    let reversedHex := strToLower (u.bytesToHex hashBytes.reverse)
    let m2 := if mapHas m1 reversedHex then m1 else mapSet m1 reversedHex en.address
    buildHashMap u rest m2

theorem buildHashMap_nil (u : CryptoUtils) (m : List (String × String)) :
    buildHashMap u [] m = m := rfl

theorem buildHashMap_cons (u : CryptoUtils) (en : RecipientEntry)
    (rest : List RecipientEntry) (m : List (String × String)) :
    buildHashMap u (en :: rest) m =
      buildHashMap u rest
        (if mapHas (mapSet m (entryHashHex u en) en.address) (entryRevHex u en)
         then mapSet m (entryHashHex u en) en.address
         else mapSet (mapSet m (entryHashHex u en) en.address) (entryRevHex u en)
           en.address) := rfl

theorem mapGet_mapSet_same (m : List (String × String)) (k v : String) :
    mapGet (mapSet m k v) k = some v := by
  simp [mapGet, mapSet, List.lookup_cons]

theorem mapGet_mapSet_other (m : List (String × String)) (k k' v : String) (h : k ≠ k') :
    mapGet (mapSet m k v) k' = mapGet m k' := by
  simp [mapGet, mapSet, List.lookup_cons, beq_false_of_ne (Ne.symm h)]

theorem buildHashMap_preserves (u : CryptoUtils) (rest : List RecipientEntry)
    (m : List (String × String)) (k a : String)
    (hget : mapGet m k = some a)
    (hfwd : ∀ en ∈ rest, entryHashHex u en ≠ k) :
    mapGet (buildHashMap u rest m) k = some a := by
  induction rest generalizing m with
  | nil => simpa [buildHashMap_nil] using hget
  | cons en rest ih =>
    rw [buildHashMap_cons]
    have hne : entryHashHex u en ≠ k := hfwd en (List.mem_cons_self en rest)
    have hk1 : mapGet (mapSet m (entryHashHex u en) en.address) k = some a := by
      rw [mapGet_mapSet_other m _ k en.address hne]
      exact hget
    apply ih _ _ (fun e' he' => hfwd e' (List.mem_cons_of_mem en he'))
    by_cases hrev : mapHas (mapSet m (entryHashHex u en) en.address) (entryRevHex u en) = true
    · rw [if_pos hrev]
      exact hk1
    · rw [if_neg hrev]
      have hkrev : entryRevHex u en ≠ k := by
        intro heq
        apply hrev
        rw [heq]
        have hk1' : List.lookup k (mapSet m (entryHashHex u en) en.address) = some a := hk1
        simp only [mapHas, hk1']
        rfl
      rw [mapGet_mapSet_other _ _ k en.address hkrev]
      exact hk1

theorem buildHashMap_append (u : CryptoUtils) (l1 l2 : List RecipientEntry)
    (m : List (String × String)) :
    buildHashMap u (l1 ++ l2) m = buildHashMap u l2 (buildHashMap u l1 m) := by
  induction l1 generalizing m with
  | nil => rw [List.nil_append, buildHashMap_nil]
  | cons en rest ih => rw [List.cons_append, buildHashMap_cons, buildHashMap_cons, ih]

/-- C7 counterexample utilities: a degenerate but legal instantiation of
the external `utils` functions under which every pubkey hashes to the
same key `"k"` (two identical pubkeys collide under any hash). -/
def cexUtils : CryptoUtils :=
  { hexToBytes := fun _ => [0], hash160 := fun b => b, bytesToHex := fun _ => "k" }

/-- C7 counterexample entries: two entries with the same pubkey and
different addresses. -/
def cexEntries : List RecipientEntry := [⟨"NADDR1", "aa"⟩, ⟨"NADDR2", "aa"⟩]

/-- C7 counterexample: both entries have forward key `"k"`, and the map
sends `"k"` to the second entry's address — the forward insertion
overwrites, so the first writer loses, contradicting the claim for the
first entry. -/
theorem getHashMap_first_writer_counterexample :
    entryHashHex cexUtils ⟨"NADDR1", "aa"⟩ = "k" ∧
    entryHashHex cexUtils ⟨"NADDR2", "aa"⟩ = "k" ∧
    mapGet (buildHashMap cexUtils cexEntries []) "k" = some "NADDR2" := by
  refine ⟨by decide, by decide, by decide⟩

/-- C7 amended: the forward key of each entry is set unconditionally, so
the map sends `hex(hash160(pubkey))` to the entry's address provided no
later entry writes the same forward key (last writer wins on forward
keys); the reversed key is inserted only when absent, and for a single
entry both its forward and reversed keys map to its address. -/
theorem getHashMap_spec (u : CryptoUtils) (pre : List RecipientEntry)
    (en : RecipientEntry) (post : List RecipientEntry)
    (hpost : ∀ e' ∈ post, entryHashHex u e' ≠ entryHashHex u en) :
    mapGet (buildHashMap u (pre ++ en :: post) []) (entryHashHex u en) = some en.address ∧
    mapGet (buildHashMap u [en] []) (entryHashHex u en) = some en.address ∧
    mapGet (buildHashMap u [en] []) (entryRevHex u en) = some en.address := by
  have hsingle : ∀ m0 : List (String × String),
      mapGet (buildHashMap u [en] m0) (entryHashHex u en) = some en.address := by
    intro m0
    rw [buildHashMap_cons, buildHashMap_nil]
    by_cases hrev : mapHas (mapSet m0 (entryHashHex u en) en.address) (entryRevHex u en) = true
    · rw [if_pos hrev]
      exact mapGet_mapSet_same m0 _ _
    · rw [if_neg hrev]
      by_cases heq : entryRevHex u en = entryHashHex u en
      · exfalso
        apply hrev
        rw [heq]
        have hsame : List.lookup (entryHashHex u en)
            (mapSet m0 (entryHashHex u en) en.address) = some en.address :=
          mapGet_mapSet_same m0 _ _
        simp only [mapHas, hsame]
        rfl
      · rw [mapGet_mapSet_other _ _ _ en.address heq]
        exact mapGet_mapSet_same m0 _ _
  refine ⟨?_, ?_, ?_⟩
  · rw [show pre ++ en :: post = (pre ++ [en]) ++ post by simp, buildHashMap_append,
      buildHashMap_append]
    exact buildHashMap_preserves u post _ _ en.address (hsingle (buildHashMap u pre [])) hpost
  · exact hsingle []
  · rw [buildHashMap_cons, buildHashMap_nil]
    by_cases hrev : mapHas (mapSet [] (entryHashHex u en) en.address) (entryRevHex u en) = true
    · rw [if_pos hrev]
      have heq : entryHashHex u en = entryRevHex u en := by
        simp only [mapHas, mapSet, List.lookup_cons] at hrev
        by_cases hbe : entryRevHex u en = entryHashHex u en
        · exact hbe.symm
        · rw [beq_false_of_ne hbe] at hrev
          simp [List.lookup] at hrev
      rw [← heq]
      exact mapGet_mapSet_same [] _ _
    · rw [if_neg hrev]
      exact mapGet_mapSet_same _ _ _

/-- Witness for C7 amended: a singleton directory maps its entry's
forward key to the entry's address. -/
theorem getHashMap_spec_witness :
    mapGet (buildHashMap cexUtils [⟨"NADDR1", "aa"⟩] [])
      (entryHashHex cexUtils ⟨"NADDR1", "aa"⟩) = some "NADDR1" := by
  have h := getHashMap_spec cexUtils [] ⟨"NADDR1", "aa"⟩ [] (by simp)
  exact h.2.1

/-- The hash-cache state of `RecipientDirectory`. -/
structure HashCacheState where
  map : List (String × String)
  updatedAt : Nat

/-- One call of `RecipientDirectory.getHashMap`, given the entries the
inner `refresh` produced: serve the fresh cache; bail out unchanged when
the crypto utils are unavailable; otherwise rebuild, and store the new
map only when it is non-empty.  Returns the served map and the updated
cache state (`now` is `Date.now()` at entry, `storeTime` at store). -/
def getHashMapStep (st : HashCacheState) (force : Bool) (now storeTime refreshMs : Nat)
    (utilsAvailable : Bool) (u : CryptoUtils) (entries : List RecipientEntry) :
    List (String × String) × HashCacheState :=
  if force = false ∧ st.map ≠ [] ∧ now - st.updatedAt < refreshMs then (st.map, st)
  else if utilsAvailable = false then (st.map, st)
  else
    let nextMap := buildHashMap u entries []
    if nextMap ≠ [] then (nextMap, ⟨nextMap, storeTime⟩)
    else (st.map, st)

/-- C10: once the stored hash map is non-empty it never becomes empty
again — when the recomputation yields an empty map (in particular when
the crypto utils are unavailable) the previous map and its timestamp are
returned and kept unchanged. -/
theorem getHashMapStep_preserves_nonempty (st : HashCacheState) (force : Bool)
    (now storeTime refreshMs : Nat) (utilsAvailable : Bool) (u : CryptoUtils)
    (entries : List RecipientEntry) :
    (st.map ≠ [] →
      (getHashMapStep st force now storeTime refreshMs utilsAvailable u entries).1 ≠ [] ∧
      (getHashMapStep st force now storeTime refreshMs utilsAvailable u entries).2.map ≠ []) ∧
    (buildHashMap u entries [] = [] →
      getHashMapStep st force now storeTime refreshMs utilsAvailable u entries = (st.map, st)) ∧
    (utilsAvailable = false →
      getHashMapStep st force now storeTime refreshMs utilsAvailable u entries =
        (st.map, st)) := by
  simp only [getHashMapStep]
  split_ifs with h1 h2 h3
  · exact ⟨fun h => ⟨h, h⟩, fun _ => rfl, fun _ => rfl⟩
  · exact ⟨fun h => ⟨h, h⟩, fun _ => rfl, fun _ => rfl⟩
  · refine ⟨fun _ => ⟨h3, h3⟩, fun habs => absurd habs h3, fun habs => absurd habs h2⟩
  · exact ⟨fun h => ⟨h, h⟩, fun _ => rfl, fun _ => rfl⟩

/-- Witness for C10: a non-empty stored map stays non-empty through a
call made while the utils are unavailable. -/
theorem getHashMapStep_preserves_nonempty_witness :
    (getHashMapStep ⟨[("k", "a")], 0⟩ true 0 0 0 false cexUtils []).2.map ≠ [] := by
  have h := getHashMapStep_preserves_nonempty ⟨[("k", "a")], 0⟩ true 0 0 0 false cexUtils []
  exact (h.1 (by decide)).2

/-! ## ConfigManager: secret-at-rest record (`encryptPrivateKey` /
`decryptPrivateKey`) and poll-interval validation (`validate`) -/

/-- The Node `crypto` primitives used by the secret store, taken as
abstract functions of the external library: scrypt key derivation and
AES-256-GCM.  The fixed parameters (salt 32 bytes, IV 16, key 32, scrypt
N=16384 r=8 p=1, algorithm `aes-256-gcm`) are passed identically by
`encryptPrivateKey` and `decryptPrivateKey`, so the derived key is a
function of the password and salt only. -/
structure GcmScheme where
  scrypt : List Char → List Nat → List Nat
  encrypt : List Nat → List Nat → List Char → List Nat
  authTag : List Nat → List Nat → List Char → List Nat
  decrypt : List Nat → List Nat → List Nat → List Nat → Option (List Char)

/-- JS `String.prototype.split(':')` on a character list. -/
def splitColon : List Char → List (List Char)
  | [] => [[]]
  | c :: rest =>
    let r := splitColon rest
    if c = ':' then [] :: r
    else
      match r with
      | [] => [[c]]
      | h :: t => (c :: h) :: t

theorem splitColon_no_colon (l : List Char) (h : ':' ∉ l) : splitColon l = [l] := by
  induction l with
  | nil => rfl
  | cons c rest ih =>
    have hc : ¬c = ':' := fun he => h (he ▸ List.mem_cons_self c rest)
    have hr : ':' ∉ rest := fun hm => h (List.mem_cons_of_mem c hm)
    simp [splitColon, hc, ih hr]

theorem splitColon_append (a rest : List Char) (ha : ':' ∉ a) :
    splitColon (a ++ ':' :: rest) = a :: splitColon rest := by
  induction a with
  | nil => simp [splitColon]
  | cons c a ih =>
    have hc : ¬c = ':' := fun he => ha (he ▸ List.mem_cons_self c a)
    have ha2 : ':' ∉ a := fun hm => ha (List.mem_cons_of_mem c hm)
    rw [List.cons_append]
    simp [splitColon, hc, ih ha2]

/-- `ConfigManager.encryptPrivateKey`: derive the key with scrypt, run
AES-256-GCM, emit `salt:iv:tag:ct` as colon-separated lowercase hex.  The
salt and IV are the fresh random bytes passed in. -/
def encryptPrivateKey (g : GcmScheme) (salt iv : List Nat)
    (privateKey password : List Char) : List Char :=
  let key := g.scrypt password salt
  let encrypted := g.encrypt key iv privateKey
  let tag := g.authTag key iv privateKey
  bytesToHexChars salt ++ ':' ::
    (bytesToHexChars iv ++ ':' :: (bytesToHexChars tag ++ ':' :: bytesToHexChars encrypted))

/-- `ConfigManager.decryptPrivateKey`: split on `:` into exactly four hex
fields (anything else is an error), re-derive the key with the same
scrypt parameters, authenticate and decrypt; authentication failure is an
error (`none`). -/
def decryptPrivateKey (g : GcmScheme) (encryptedData password : List Char) :
    Option (List Char) :=
  match splitColon encryptedData with
  | [saltHex, ivHex, tagHex, ctHex] =>
    let salt := hexCharsToBytes saltHex
    let iv := hexCharsToBytes ivHex
    let tag := hexCharsToBytes tagHex
    let key := g.scrypt password salt
    g.decrypt key iv tag (hexCharsToBytes ctHex)
  | _ => none

/-- C8: with the same password (any password of length 4–30), decrypting
the encrypted record recovers the WIF key, given the AES-GCM contract of
the external library — decryption with the same key and IV inverts
encryption and accepts the produced auth tag — and that the primitives
produce genuine bytes (`< 256`). -/
theorem decrypt_encrypt_roundtrip (g : GcmScheme) (salt iv : List Nat)
    (wif password : List Char)
    (hplen : 4 ≤ password.length ∧ password.length ≤ 30)
    (hsalt : ∀ b ∈ salt, b < 256) (hiv : ∀ b ∈ iv, b < 256)
    (htag : ∀ b ∈ g.authTag (g.scrypt password salt) iv wif, b < 256)
    (hct : ∀ b ∈ g.encrypt (g.scrypt password salt) iv wif, b < 256)
    (hdec : g.decrypt (g.scrypt password salt) iv
      (g.authTag (g.scrypt password salt) iv wif)
      (g.encrypt (g.scrypt password salt) iv wif) = some wif) :
    decryptPrivateKey g (encryptPrivateKey g salt iv wif password) password = some wif := by
  simp only [encryptPrivateKey, decryptPrivateKey]
  rw [splitColon_append _ _ (colon_not_mem_bytesToHexChars salt),
    splitColon_append _ _ (colon_not_mem_bytesToHexChars iv),
    splitColon_append _ _ (colon_not_mem_bytesToHexChars (g.authTag (g.scrypt password salt) iv wif)),
    splitColon_no_colon _ (colon_not_mem_bytesToHexChars (g.encrypt (g.scrypt password salt) iv wif))]
  simp only [hexCharsToBytes_bytesToHexChars salt hsalt,
    hexCharsToBytes_bytesToHexChars iv hiv,
    hexCharsToBytes_bytesToHexChars _ htag,
    hexCharsToBytes_bytesToHexChars _ hct]
  exact hdec

/-- A trivial instance of the external crypto used to witness C8. -/
def witnessScheme : GcmScheme :=
  { scrypt := fun _ _ => [], encrypt := fun _ _ _ => [], authTag := fun _ _ _ => [],
    decrypt := fun _ _ _ _ => some ['K', '1'] }

/-- Witness for C8: a concrete roundtrip through the record format. -/
theorem decrypt_encrypt_roundtrip_witness :
    decryptPrivateKey witnessScheme
      (encryptPrivateKey witnessScheme [7] [9] ['K', '1'] ['p', 'a', 's', 's'])
      ['p', 'a', 's', 's'] = some ['K', '1'] := by
  exact decrypt_encrypt_roundtrip witnessScheme [7] [9] ['K', '1'] ['p', 'a', 's', 's']
    (by decide) (by decide) (by decide)
    (by simp [witnessScheme]) (by simp [witnessScheme]) rfl

/-- `POLLING.DEFAULT_INTERVAL` (constants.js). -/
def POLLING_DEFAULT_INTERVAL : Int := 10000

/-- `POLLING.MIN_INTERVAL` (constants.js). -/
def POLLING_MIN_INTERVAL : Int := 1000

/-- `POLLING.MAX_INTERVAL` (constants.js). -/
def POLLING_MAX_INTERVAL : Int := 60000

/-- The poll-interval normalisation of `ConfigManager.validate`: a falsy
(`none`/0) or below-minimum value becomes the default; then an
above-maximum value becomes the maximum. -/
def validatePollInterval (pollInterval : Option Int) : Int :=
  let p1 :=
    match pollInterval with
    | none => POLLING_DEFAULT_INTERVAL
    | some v => if v = 0 ∨ v < POLLING_MIN_INTERVAL then POLLING_DEFAULT_INTERVAL else v
  if POLLING_MAX_INTERVAL < p1 then POLLING_MAX_INTERVAL else p1

/-- Modelled from the spec: the clamp to `[lo, hi]` that the claim says
`validate` applies to the configured value. -/
def clampSpec (v lo hi : Int) : Int := max lo (min v hi)

/-- C9 counterexample: a configured `pollInterval` of 500 is normalised to
the default 10000, not to the clamp's lower end 1000 — validation is not
a clamp of the configured value. -/
theorem validatePollInterval_not_clamp :
    validatePollInterval (some 500) = 10000 ∧
    clampSpec 500 POLLING_MIN_INTERVAL POLLING_MAX_INTERVAL = 1000 ∧
    validatePollInterval (some 500) ≠
      clampSpec 500 POLLING_MIN_INTERVAL POLLING_MAX_INTERVAL := by
  refine ⟨by decide, by decide, by decide⟩

/-- C9 amended: zero, negative, or below-minimum configured values become
the default 10000 (not the clamp's lower end); values above 60000 become
60000; in-range values are kept; the result always lies in
`[1000, 60000]`, with 10000 for a missing value. -/
theorem validatePollInterval_spec (v : Int) :
    (v ≤ 0 ∨ v < 1000 → validatePollInterval (some v) = 10000) ∧
    (1000 ≤ v → v ≤ 60000 → validatePollInterval (some v) = v) ∧
    (60000 < v → validatePollInterval (some v) = 60000) ∧
    1000 ≤ validatePollInterval (some v) ∧
    validatePollInterval (some v) ≤ 60000 ∧
    validatePollInterval none = 10000 := by
  refine ⟨?_, ?_, ?_, ?_, ?_, ?_⟩ <;>
    simp only [validatePollInterval, POLLING_DEFAULT_INTERVAL, POLLING_MIN_INTERVAL,
      POLLING_MAX_INTERVAL] <;>
    intros <;> split_ifs <;> omega

/-- Witness for C9 amended: the three regimes at concrete inputs. -/
theorem validatePollInterval_spec_witness :
    validatePollInterval (some (-5)) = 10000 ∧
    validatePollInterval (some 70000) = 60000 ∧
    validatePollInterval (some 2000) = 2000 := by
  have hlow := validatePollInterval_spec (-5)
  have hhigh := validatePollInterval_spec 70000
  have hmid := validatePollInterval_spec 2000
  exact ⟨hlow.1 (Or.inl (by decide)), hhigh.2.2.1 (by decide),
    hmid.2.1 (by decide) (by decide)⟩

end DepinTerminal
